import Mathlib

/-!
Verification of the `flatten_tree` repository's constraint-propagation core
(`src/flatten_tree/flattener.py` together with the data model in
`src/flatten_tree/datamodel.py`).

The Python code is shallowly embedded as follows.

* `Condition`, `OrCondition`, `TreeNode` mirror the dataclasses of
  `datamodel.py`.  A Python float leaf value is represented by its rendered
  decimal string (the only observation the flattener makes of it is the
  f-string rendering, and the literals used in the tests render verbatim).
* The constraint store `Dict[str, (Optional[str], Set[str])]` is embedded as
  an insertion-ordered association list `Store`; the forbidden-value set is a
  duplicate-free list (insertion guarded by membership, exactly matching
  `set.add`), and rendering sorts it, so the list order is unobservable.
* `add_simple_constraint` is a direct transcription of the Python function of
  the same name.
* The generator `TreeFlattener._dfs_collect_strategies` is embedded as
  `dfs_collect_strategies`, returning a `Trace`: the sequence of strings the
  generator yields before it either finishes (`none`) or raises
  (`some err`).  A `KeyError` from `self.nodes[node_id]` is `missingNode`;
  the embedding is additionally indexed by a recursion-depth budget `fuel`,
  and exhausting it is the distinguished outcome `outOfFuel`, used to reason
  about (non-)termination.  `seqTrace` is sequential composition of two
  generator runs: once a run raises, the following one is never started.
* `TreeFlattener.flatten` is `flatten`; the node table
  `Dict[int, TreeNode]` is a lookup function `Nat → Option TreeNode`.
-/

/-- `datamodel.Condition`: one atomic test `variable operator value`.
(The Python field `variable` is a Lean keyword, so it is named `var`.) -/
structure Condition where
  var : String
  operator : String
  value : String
deriving DecidableEq

/-- `datamodel.OrCondition`: a disjunction of exactly two conditions. -/
structure OrCondition where
  left : Condition
  right : Condition
deriving DecidableEq

/-- `datamodel.TreeNode`.  `leaf_value` holds the decimal rendering of the
Python float. -/
structure TreeNode where
  node_id : Nat
  or_condition : Option OrCondition
  single_condition : Option Condition
  yes_branch : Option Nat
  no_branch : Option Nat
  leaf_value : Option String
deriving DecidableEq

/-- The constraint store `Dict[str, (Optional[str], Set[str])]`, kept in
insertion order: variable name paired with (required-equals, forbidden list). -/
abbrev Store := List (String × (Option String × List String))

/-- First-occurrence lookup, the embedding of `var in constraints` /
`constraints[var]`. -/
def lookupVar : Store → String → Option (Option String × List String)
  | [], _ => none
  | (k, p) :: rest, v => if k = v then some p else lookupVar rest v

/-- In-place update of the (unique) entry of a variable, the embedding of
`new_constraints[var] = ...` for a key already present. -/
def setVar : Store → String → (Option String × List String) → Store
  | [], _, _ => []
  | (k, p) :: rest, v, q => if k = v then (k, q) :: rest else (k, p) :: setVar rest v q

/-- `set.add` on the forbidden-value list: append only when absent. -/
def insertForbidden (l : List String) (v : String) : List String :=
  if v ∈ l then l else l ++ [v]

/-- Direct transcription of `flattener.add_simple_constraint`
(src/flatten_tree/flattener.py lines 4–38).  `none` is the Python `None`
returned on contradiction; the deep copy made by the Python function is
implicit (the embedding is pure). -/
def add_simple_constraint (constraints : Store) (var op val : String) : Option Store :=
  match lookupVar constraints var with
  | some (eq, ineq) =>
    if op = "=" then
      match eq with
      | none =>
        -- `new_constraints[var] = (val, ineq)`, then contradiction check
        if val ∈ ineq then none else some (setVar constraints var (some val, ineq))
      | some e =>
        if e ≠ val then none else some constraints
    else if op = "!=" then
      match eq with
      | some e => if e = val then none else some constraints
      | none => some (setVar constraints var (none, insertForbidden ineq val))
    else
      -- unknown operator with the variable present: the if/elif falls
      -- through and the unchanged copy is returned
      some constraints
  | none =>
    if op = "=" then some (constraints ++ [(var, (some val, []))])
    else some (constraints ++ [(var, (none, [val]))])

/-- Python's `"!=" if op == "=" else "="`. -/
def negOp (op : String) : String :=
  if op = "=" then "!=" else "="

/-- Strict lexicographic comparison of character lists by code point — the
order Python's `sorted` uses on `str`. -/
def lexLtb : List Char → List Char → Bool
  | [], [] => false
  | [], _ :: _ => true
  | _ :: _, [] => false
  | a :: as, b :: bs => if a < b then true else if b < a then false else lexLtb as bs

/-- The non-strict string order `a ≤ b` induced by `lexLtb`. -/
def strLe (a b : String) : Prop := lexLtb b.data a.data = false

instance : DecidableRel strLe :=
  fun a b => inferInstanceAs (Decidable (lexLtb b.data a.data = false))

/-- Python's `sorted` on a list of strings (ascending lexicographic). -/
def sortStrings (l : List String) : List String :=
  List.insertionSort strLe l

/-- Python's `sep.join(parts)`. -/
def joinSep (sep : String) : List String → String
  | [] => ""
  | [a] => a
  | a :: rest => a ++ sep ++ joinSep sep rest

/-- The `cond_list` built at a leaf of `_dfs_collect_strategies`
(flattener.py lines 64–70): per store entry, in insertion order, either the
single equality term or the sorted inequality terms. -/
def renderTerms (constraints : Store) : List String :=
  constraints.flatMap fun e =>
    match e.2.1 with
    | some eqv => [e.1 ++ "=" ++ eqv]
    | none => (sortStrings e.2.2).map fun d => e.1 ++ "!=" ++ d

/-- The full rule string yielded at a leaf (flattener.py lines 71–73):
`f"{cond_str} : {leaf}"` when `cond_str` is truthy, else `f": {leaf}"`. -/
def renderRule (constraints : Store) (extra_conditions : List String) (v : String) : String :=
  let cond_str := joinSep " & " (renderTerms constraints ++ extra_conditions)
  if cond_str = "" then ": " ++ v else cond_str ++ " : " ++ v

/-- Failures a traversal can raise: `missingNode` is the `KeyError` of
`self.nodes[node_id]`; `outOfFuel` marks an exhausted recursion budget. -/
inductive FlattenErr where
  | missingNode : FlattenErr
  | outOfFuel : FlattenErr
deriving DecidableEq

/-- Observable run of the generator: the strings yielded in order, then
either normal completion (`none`) or an exception (`some e`). -/
abbrev Trace := List String × Option FlattenErr

/-- Sequential composition of two generator runs (`yield from a; yield from
b`): if `a` raises, `b` is never started. -/
def seqTrace (a b : Trace) : Trace :=
  match a.2 with
  | some e => (a.1, some e)
  | none => (a.1 ++ b.1, b.2)

/-- The node table `Dict[int, TreeNode]`. -/
abbrev NodeTable := Nat → Option TreeNode

/-- Transcription of `TreeFlattener._dfs_collect_strategies`
(flattener.py lines 55–117), with a fuel index for the recursion.  Branch
order, store propagation and the pruning on `None` results of
`add_simple_constraint` follow the source line by line. -/
def dfs_collect_strategies (nodes : NodeTable) :
    Nat → Nat → Store → List String → Trace
  | 0, _, _, _ => ([], some FlattenErr.outOfFuel)
  | fuel + 1, node_id, constraints, extra_conditions =>
    match nodes node_id with
    | none => ([], some FlattenErr.missingNode)  -- KeyError on node lookup
    | some node =>
      match node.leaf_value with
      | some v =>
        -- leaf: build and yield the single strategy, then return
        ([renderRule constraints extra_conditions v], none)
      | none =>
        match node.or_condition with
        | some or_cond =>
          seqTrace
            (match node.yes_branch with
             | some y =>
               seqTrace
                 -- Option 1: assume the left condition is true.
                 (match add_simple_constraint constraints or_cond.left.var
                     or_cond.left.operator or_cond.left.value with
                  | some cl => dfs_collect_strategies nodes fuel y cl extra_conditions
                  | none => ([], none))
                 -- Option 2: assume the right condition is true (against the
                 -- original pre-branch store).
                 (match add_simple_constraint constraints or_cond.right.var
                     or_cond.right.operator or_cond.right.value with
                  | some cr => dfs_collect_strategies nodes fuel y cr extra_conditions
                  | none => ([], none))
             | none => ([], none))
            -- Branch NO: both disjuncts are false.
            (match node.no_branch with
             | some nb =>
               match add_simple_constraint constraints or_cond.left.var
                   (negOp or_cond.left.operator) or_cond.left.value with
               | none => ([], none)  -- branch impossible
               | some c1 =>
                 match add_simple_constraint c1 or_cond.right.var
                     (negOp or_cond.right.operator) or_cond.right.value with
                 | none => ([], none)  -- branch impossible
                 | some c2 => dfs_collect_strategies nodes fuel nb c2 extra_conditions
             | none => ([], none))
        | none =>
          match node.single_condition with
          | some cond =>
            seqTrace
              -- YES branch: add the condition as is.
              (match add_simple_constraint constraints cond.var cond.operator cond.value,
                  node.yes_branch with
               | some cs, some y => dfs_collect_strategies nodes fuel y cs extra_conditions
               | _, _ => ([], none))
              -- NO branch: add the negation of the condition.
              (match add_simple_constraint constraints cond.var (negOp cond.operator) cond.value,
                  node.no_branch with
               | some cs, some nb => dfs_collect_strategies nodes fuel nb cs extra_conditions
               | _, _ => ([], none))
          | none => ([], none)

/-- `TreeFlattener.flatten` (flattener.py lines 44–53): start the DFS at the
root with an empty store and empty `extra_conditions`. -/
def flatten (nodes : NodeTable) (fuel : Nat) (root_id : Nat) : Trace :=
  dfs_collect_strategies nodes fuel root_id [] []

/-! ### Concrete trees used by the spec's test scenarios -/

/-- Leaf node helper (all condition fields `None`). -/
def leafNode (i : Nat) (v : String) : TreeNode :=
  ⟨i, none, none, none, none, some v⟩

/-- Single-condition decision node helper. -/
def condNode (i : Nat) (c : Condition) (y n : Nat) : TreeNode :=
  ⟨i, none, some c, some y, some n, none⟩

/-- The OR-expansion scenario:
`0:[device_type=pc||or||browser=7] yes=1,no=2`, `1:leaf=0.111`,
`2:leaf=0.222`. -/
def orTable : NodeTable := fun i =>
  if i = 0 then
    some ⟨0, some ⟨⟨"device_type", "=", "pc"⟩, ⟨"browser", "=", "7"⟩⟩, none,
      some 1, some 2, none⟩
  else if i = 1 then some (leafNode 1 "0.111")
  else if i = 2 then some (leafNode 2 "0.222")
  else none

/-- The pruning scenario: `0:[x=4] yes=1,no=2`, `1:leaf=0.1`,
`2:[x=4] yes=3,no=4`, `3:leaf=0.111`, `4:leaf=0.9`. -/
def pruneTable : NodeTable := fun i =>
  if i = 0 then some (condNode 0 ⟨"x", "=", "4"⟩ 1 2)
  else if i = 1 then some (leafNode 1 "0.1")
  else if i = 2 then some (condNode 2 ⟨"x", "=", "4"⟩ 3 4)
  else if i = 3 then some (leafNode 3 "0.111")
  else if i = 4 then some (leafNode 4 "0.9")
  else none

/-! ### Store observations and basic lemmas -/

/-- The variable's required-equals value (unset when the variable is absent). -/
def getEq (s : Store) (var : String) : Option String :=
  match lookupVar s var with
  | some p => p.1
  | none => none

/-- The variable's forbidden-value set (empty when the variable is absent). -/
def getForbidden (s : Store) (var : String) : List String :=
  match lookupVar s var with
  | some p => p.2
  | none => []

/-- The store invariant of the spec: a set required-equals value is never in
the same variable's forbidden set. -/
def StoreInv (s : Store) : Prop :=
  ∀ e ∈ s, ∀ w, e.2.1 = some w → w ∉ e.2.2

/-- The variables of the store, in insertion order. -/
def storeKeys (s : Store) : List String :=
  s.map fun e => e.1

/-- Well-formedness inherited from the Python dict: one entry per variable. -/
def NodupKeys (s : Store) : Prop :=
  (storeKeys s).Nodup

/-! ### Further specification-side definitions -/

/-- `true` iff the two-character sequence `OR` occurs in the character list. -/
def hasOR : List Char → Bool
  | [] => false
  | [_] => false
  | a :: b :: rest => (a = 'O' && b = 'R') || hasOR (b :: rest)

/-- The last character is `O`. -/
def endsO : List Char → Bool
  | [] => false
  | [c] => c = 'O'
  | _ :: rest => endsO rest

/-- The first character is `R`. -/
def startsR : List Char → Bool
  | [] => false
  | c :: _ => c = 'R'

/-- The string does not contain the literal `OR`. -/
def noORs (s : String) : Prop := hasOR s.data = false

instance : DecidablePred noORs :=
  fun s => inferInstanceAs (Decidable (hasOR s.data = false))

/-- A condition whose variable and value are `OR`-free. -/
def CondOK (c : Condition) : Prop := noORs c.var ∧ noORs c.value

/-- A node table whose condition variables/values and leaf renderings are
`OR`-free. -/
def TableOK (nodes : NodeTable) : Prop :=
  ∀ i n, nodes i = some n →
    (∀ c, n.single_condition = some c → CondOK c)
    ∧ (∀ oc, n.or_condition = some oc → CondOK oc.left ∧ CondOK oc.right)
    ∧ (∀ v, n.leaf_value = some v → noORs v)

/-- A store whose variables and values are all `OR`-free. -/
def StoreOK (s : Store) : Prop :=
  ∀ e ∈ s, noORs e.1 ∧ (∀ w, e.2.1 = some w → noORs w) ∧ (∀ d ∈ e.2.2, noORs d)

/-- The condition `c` is one of the atomic conditions stored in the table
(either a node's single condition or a disjunct of its OR condition). -/
def CondOfTable (nodes : NodeTable) (c : Condition) : Prop :=
  ∃ i n, nodes i = some n ∧
    (n.single_condition = some c
      ∨ ∃ oc, n.or_condition = some oc ∧ (c = oc.left ∨ c = oc.right))

/-- An assignment of values to variables satisfies a store when it meets the
facts the store renders: the required-equals value where set, avoidance of
every forbidden value where not. -/
def SatAssign (σ : String → String) (s : Store) : Prop :=
  ∀ e ∈ s, (∀ w, e.2.1 = some w → σ e.1 = w)
    ∧ (e.2.1 = none → ∀ d ∈ e.2.2, σ e.1 ≠ d)

/-- Length of the longest string in the list. -/
def maxLen (l : List String) : Nat :=
  l.foldr (fun s m => max s.length m) 0

/-- A string distinct from every member of `l` (it is strictly longer). -/
def freshNotIn (l : List String) : String :=
  ⟨List.replicate (maxLen l + 1) 'z'⟩

/-- Canonical satisfying assignment of a store with unique keys. -/
def satOf (s : Store) : String → String := fun x =>
  match lookupVar s x with
  | some (some w, _) => w
  | some (none, ineq) => freshNotIn ineq
  | none => ""

/-- The child relation of a node table: `childRel nodes c i` holds when the
node at `i` references `c` as its yes- or no-branch. -/
def childRel (nodes : NodeTable) (c i : Nat) : Prop :=
  ∃ n, nodes i = some n ∧ (n.yes_branch = some c ∨ n.no_branch = some c)

/-- The leaf rendering as the spec words it: terms of the store in insertion
order (one `variable=value`, or the sorted `variable!=v` terms), joined by
`" & "` and followed by `" : "` and the leaf value; `": "` plus the value
when there are no terms at all. -/
def spec_render (s : Store) (v : String) : String :=
  let terms := renderTerms s
  if terms = [] then ": " ++ v else joinSep " & " terms ++ " : " ++ v

/-- C6's multi-tag node: simultaneously a leaf, a single-condition node and
an OR node. -/
def multiTagTable : NodeTable := fun i =>
  if i = 0 then
    some ⟨0, some ⟨⟨"a", "=", "1"⟩, ⟨"b", "=", "2"⟩⟩, some ⟨"a", "=", "1"⟩,
      some 1, some 1, some "0.5"⟩
  else if i = 1 then some (leafNode 1 "0.7")
  else none

/-- C8's table with an unbounded cycle behind the NO branch: node 2 loops
into itself on both branches. -/
def cyclicTable : NodeTable := fun i =>
  if i = 0 then some (condNode 0 ⟨"x", "=", "4"⟩ 1 2)
  else if i = 1 then some (leafNode 1 "0.1")
  else if i = 2 then some (condNode 2 ⟨"y", "=", "1"⟩ 2 2)
  else none

/-- C8's table with a missing node behind the NO branch: node 2 is absent. -/
def missingTailTable : NodeTable := fun i =>
  if i = 0 then some (condNode 0 ⟨"x", "=", "4"⟩ 1 2)
  else if i = 1 then some (leafNode 1 "0.1")
  else none

/-- A one-node table: a bare leaf at the root. -/
def singleLeafTable : NodeTable := fun i =>
  if i = 0 then some (leafNode 0 "0.3") else none

/-- A table whose condition variable is literally named `OR`. -/
def orVarTable : NodeTable := fun i =>
  if i = 0 then some (condNode 0 ⟨"OR", "=", "1"⟩ 1 2)
  else if i = 1 then some (leafNode 1 "0.1")
  else if i = 2 then some (leafNode 2 "0.2")
  else none

/-! ### Basic store lemmas -/

theorem lookupVar_eq_none_iff (s : Store) (w : String) :
    lookupVar s w = none ↔ w ∉ storeKeys s := by
  induction s with
  | nil => simp [lookupVar, storeKeys]
  | cons e rest ih =>
    by_cases h : e.1 = w
    · simp [lookupVar, storeKeys, h]
    · simp only [lookupVar, storeKeys, List.map_cons, List.mem_cons]
      rw [if_neg h]
      simp only [storeKeys] at ih
      rw [ih]
      constructor
      · intro hw hc
        rcases hc with h1 | h2
        · exact h h1.symm
        · exact hw h2
      · intro hw h2
        exact hw (Or.inr h2)

theorem lookupVar_append (s t : Store) (w : String) :
    lookupVar (s ++ t) w =
      match lookupVar s w with
      | some p => some p
      | none => lookupVar t w := by
  induction s with
  | nil => simp [lookupVar]
  | cons e rest ih =>
    by_cases h : e.1 = w
    · simp [lookupVar, h]
    · simp [lookupVar, h, ih]

theorem lookupVar_setVar_self (s : Store) (var : String) (q : Option String × List String) :
    lookupVar (setVar s var q) var =
      match lookupVar s var with
      | some _ => some q
      | none => none := by
  induction s with
  | nil => simp [lookupVar, setVar]
  | cons e rest ih =>
    by_cases h : e.1 = var
    · simp [lookupVar, setVar, h]
    · simp [lookupVar, setVar, h, ih]

theorem lookupVar_setVar_ne (s : Store) (var w : String)
    (q : Option String × List String) (h : w ≠ var) :
    lookupVar (setVar s var q) w = lookupVar s w := by
  induction s with
  | nil => rfl
  | cons e rest ih =>
    obtain ⟨k, p⟩ := e
    by_cases h1 : k = var
    · have h2 : ¬ k = w := fun hc => h (hc ▸ h1)
      rw [setVar, if_pos h1, lookupVar, lookupVar, if_neg h2, if_neg h2]
    · rw [setVar, if_neg h1, lookupVar, lookupVar]
      by_cases h2 : k = w
      · rw [if_pos h2, if_pos h2]
      · rw [if_neg h2, if_neg h2, ih]

theorem storeKeys_setVar (s : Store) (var : String) (q : Option String × List String) :
    storeKeys (setVar s var q) = storeKeys s := by
  induction s with
  | nil => rfl
  | cons e rest ih =>
    by_cases h : e.1 = var
    · simp [storeKeys, setVar, h]
    · simp only [storeKeys, setVar, List.map_cons] at *
      rw [if_neg h, List.map_cons, ih]

theorem mem_setVar (s : Store) (var : String) (q : Option String × List String)
    (e : String × (Option String × List String)) (he : e ∈ setVar s var q) :
    e ∈ s ∨ e = (var, q) := by
  induction s with
  | nil => simp [setVar] at he
  | cons f rest ih =>
    by_cases h : f.1 = var
    · rw [setVar, if_pos h] at he
      rcases List.mem_cons.1 he with h1 | h1
      · right; rw [h1, h]
      · left; exact List.mem_cons_of_mem _ h1
    · rw [setVar, if_neg h] at he
      rcases List.mem_cons.1 he with h1 | h1
      · left; rw [h1]; exact List.mem_cons_self _ _
      · rcases ih h1 with h2 | h2
        · left; exact List.mem_cons_of_mem _ h2
        · right; exact h2

theorem lookupVar_of_mem_nodup (s : Store) (hn : NodupKeys s)
    (e : String × (Option String × List String)) (he : e ∈ s) :
    lookupVar s e.1 = some e.2 := by
  induction s with
  | nil => simp at he
  | cons f rest ih =>
    rcases List.mem_cons.1 he with h1 | h1
    · rw [h1, lookupVar, if_pos rfl]
    · have hne : ¬ f.1 = e.1 := by
        intro hc
        have : e.1 ∈ storeKeys rest := List.mem_map_of_mem _ h1
        rw [← hc] at this
        exact (List.nodup_cons.1 hn).1 this
      rw [lookupVar, if_neg hne]
      exact ih (List.nodup_cons.1 hn).2 h1

/-! ### `add_simple_constraint` preserves the invariants -/

theorem add_eq_lookup_eqNone (s : Store) (var op val : String)
    (ineq : List String) (h : lookupVar s var = some (none, ineq)) :
    add_simple_constraint s var op val =
      if op = "=" then
        (if val ∈ ineq then none else some (setVar s var (some val, ineq)))
      else if op = "!=" then
        some (setVar s var (none, insertForbidden ineq val))
      else some s := by
  simp only [add_simple_constraint, h]

theorem add_eq_lookup_eqSome (s : Store) (var op val : String) (e0 : String)
    (ineq : List String) (h : lookupVar s var = some (some e0, ineq)) :
    add_simple_constraint s var op val =
      if op = "=" then
        (if e0 ≠ val then none else some s)
      else if op = "!=" then
        (if e0 = val then none else some s)
      else some s := by
  simp only [add_simple_constraint, h]

theorem add_eq_lookup_none (s : Store) (var op val : String)
    (h : lookupVar s var = none) :
    add_simple_constraint s var op val =
      if op = "=" then some (s ++ [(var, (some val, []))])
      else some (s ++ [(var, (none, [val]))]) := by
  simp only [add_simple_constraint, h]

theorem add_preserves_inv (s : Store) (var op val : String) (s' : Store)
    (hinv : StoreInv s) (h : add_simple_constraint s var op val = some s') :
    StoreInv s' := by
  cases hl : lookupVar s var with
  | some p =>
    obtain ⟨eq, ineq⟩ := p
    cases eq with
    | none =>
      rw [add_eq_lookup_eqNone s var op val ineq hl] at h
      by_cases hop : op = "="
      · rw [if_pos hop] at h
        by_cases hm : val ∈ ineq
        · rw [if_pos hm] at h; exact absurd h (by simp)
        · rw [if_neg hm] at h
          injection h with h; subst h
          intro e he w hw
          rcases mem_setVar _ _ _ _ he with h1 | h1
          · exact hinv e h1 w hw
          · rw [h1] at hw ⊢
            injection hw with hw
            subst hw; exact hm
      · rw [if_neg hop] at h
        by_cases hop2 : op = "!="
        · rw [if_pos hop2] at h
          injection h with h; subst h
          intro e he w hw
          rcases mem_setVar _ _ _ _ he with h1 | h1
          · exact hinv e h1 w hw
          · rw [h1] at hw; simp at hw
        · rw [if_neg hop2] at h
          injection h with h; subst h; exact hinv
    | some e0 =>
      rw [add_eq_lookup_eqSome s var op val e0 ineq hl] at h
      by_cases hop : op = "="
      · rw [if_pos hop] at h
        by_cases hne : e0 ≠ val
        · rw [if_pos hne] at h; exact absurd h (by simp)
        · rw [if_neg hne] at h
          injection h with h; subst h; exact hinv
      · rw [if_neg hop] at h
        by_cases hop2 : op = "!="
        · rw [if_pos hop2] at h
          by_cases heq : e0 = val
          · rw [if_pos heq] at h; exact absurd h (by simp)
          · rw [if_neg heq] at h
            injection h with h; subst h; exact hinv
        · rw [if_neg hop2] at h
          injection h with h; subst h; exact hinv
  | none =>
    rw [add_eq_lookup_none s var op val hl] at h
    by_cases hop : op = "="
    · rw [if_pos hop] at h
      injection h with h; subst h
      intro e he w hw
      rcases List.mem_append.1 he with h1 | h1
      · exact hinv e h1 w hw
      · simp at h1
        rw [h1] at hw ⊢
        simp
    · rw [if_neg hop] at h
      injection h with h; subst h
      intro e he w hw
      rcases List.mem_append.1 he with h1 | h1
      · exact hinv e h1 w hw
      · simp at h1
        rw [h1] at hw; simp at hw

theorem add_preserves_nodup (s : Store) (var op val : String) (s' : Store)
    (hn : NodupKeys s) (h : add_simple_constraint s var op val = some s') :
    NodupKeys s' := by
  cases hl : lookupVar s var with
  | some p =>
    obtain ⟨eq, ineq⟩ := p
    have hset : ∀ q, NodupKeys (setVar s var q) := by
      intro q
      unfold NodupKeys
      rw [storeKeys_setVar]
      exact hn
    cases eq with
    | none =>
      rw [add_eq_lookup_eqNone s var op val ineq hl] at h
      by_cases hop : op = "="
      · rw [if_pos hop] at h
        by_cases hm : val ∈ ineq
        · rw [if_pos hm] at h; exact absurd h (by simp)
        · rw [if_neg hm] at h
          injection h with h; subst h; exact hset _
      · rw [if_neg hop] at h
        by_cases hop2 : op = "!="
        · rw [if_pos hop2] at h
          injection h with h; subst h; exact hset _
        · rw [if_neg hop2] at h
          injection h with h; subst h; exact hn
    | some e0 =>
      rw [add_eq_lookup_eqSome s var op val e0 ineq hl] at h
      by_cases hop : op = "="
      · rw [if_pos hop] at h
        by_cases hne : e0 ≠ val
        · rw [if_pos hne] at h; exact absurd h (by simp)
        · rw [if_neg hne] at h
          injection h with h; subst h; exact hn
      · rw [if_neg hop] at h
        by_cases hop2 : op = "!="
        · rw [if_pos hop2] at h
          by_cases heq : e0 = val
          · rw [if_pos heq] at h; exact absurd h (by simp)
          · rw [if_neg heq] at h
            injection h with h; subst h; exact hn
        · rw [if_neg hop2] at h
          injection h with h; subst h; exact hn
  | none =>
    rw [add_eq_lookup_none s var op val hl] at h
    have habs : var ∉ storeKeys s := (lookupVar_eq_none_iff s var).1 hl
    have happ : ∀ q, NodupKeys (s ++ [(var, q)]) := by
      intro q
      unfold NodupKeys storeKeys
      rw [List.map_append]
      apply List.Nodup.append hn (by simp)
      intro a ha hb
      simp at hb
      rw [hb] at ha
      exact habs ha
    by_cases hop : op = "="
    · rw [if_pos hop] at h
      injection h with h; subst h; exact happ _
    · rw [if_neg hop] at h
      injection h with h; subst h; exact happ _

theorem lookupVar_append_single_ne (s : Store) (var w : String)
    (q : Option String × List String) (h : w ≠ var) :
    lookupVar (s ++ [(var, q)]) w = lookupVar s w := by
  rw [lookupVar_append]
  cases hl : lookupVar s w with
  | some p => rfl
  | none =>
    show lookupVar [(var, q)] w = none
    rw [lookupVar, if_neg (fun hc => h hc.symm)]
    rfl

theorem lookupVar_append_single_self (s : Store) (var : String)
    (q : Option String × List String) (h : lookupVar s var = none) :
    lookupVar (s ++ [(var, q)]) var = some q := by
  rw [lookupVar_append, h]
  show lookupVar [(var, q)] var = some q
  rw [lookupVar, if_pos rfl]

/-! ### Claim C1: full semantics of `add` for operators `=` and `!=` -/

/-- **C1.** For any store satisfying the store invariant, any variable, any
operator in `{"=", "!="}` and any value, `add_simple_constraint` signals
Contradiction (`none`) exactly when (a) the required-equals value is `V` and
the operator is `=` with a different value, or (b) it is `V` and the operator
is `!=` with that same value, or (c) it is unset, the operator is `=` and the
value is already forbidden.  Otherwise it succeeds with a store equal to the
input except that `=` sets the required-equals value and `!=` with
required-equals unset adds the value to the forbidden set; the two redundant
additions return the store unchanged. -/
theorem C1_add_semantics (s : Store) (var op val : String) (hinv : StoreInv s)
    (hop : op = "=" ∨ op = "!=") :
    (add_simple_constraint s var op val = none ↔
      ((∃ V, getEq s var = some V ∧
          ((op = "=" ∧ val ≠ V) ∨ (op = "!=" ∧ val = V)))
        ∨ (getEq s var = none ∧ op = "=" ∧ val ∈ getForbidden s var)))
    ∧ (∀ s', add_simple_constraint s var op val = some s' →
        ((∀ w, w ≠ var → getEq s' w = getEq s w ∧ getForbidden s' w = getForbidden s w)
          ∧ (op = "=" → getEq s' var = some val ∧ getForbidden s' var = getForbidden s var)
          ∧ (op = "!=" → getEq s var = none →
              getEq s' var = none
                ∧ getForbidden s' var = insertForbidden (getForbidden s var) val)
          ∧ (op = "!=" → ∀ V, getEq s var = some V → s' = s)
          ∧ (op = "=" → getEq s var = some val → s' = s))) := by
  have hneq : ("=" : String) ≠ "!=" := by decide
  have hneq2 : ("!=" : String) ≠ "=" := by decide
  cases hl : lookupVar s var with
  | some p =>
    obtain ⟨eq, ineq⟩ := p
    have hgeq : getEq s var = eq := by rw [getEq, hl]
    have hgf : getForbidden s var = ineq := by rw [getForbidden, hl]
    cases eq with
    | none =>
      have hadd := add_eq_lookup_eqNone s var op val ineq hl
      rcases hop with hop | hop
      · subst hop
        rw [if_pos rfl] at hadd
        constructor
        · rw [hadd]
          by_cases hm : val ∈ ineq
          · rw [if_pos hm]
            constructor
            · intro _
              exact Or.inr ⟨hgeq, rfl, hgf ▸ hm⟩
            · intro _
              rfl
          · rw [if_neg hm]
            constructor
            · intro hc; exact Option.noConfusion hc
            · rintro (⟨V, hV, _⟩ | ⟨_, _, hmem⟩)
              · rw [hgeq] at hV; exact Option.noConfusion hV
              · exact absurd (hgf ▸ hmem) hm
        · intro s' hs'
          rw [hadd] at hs'
          by_cases hm : val ∈ ineq
          · rw [if_pos hm] at hs'; exact absurd hs' (by simp)
          · rw [if_neg hm] at hs'
            injection hs' with hs'; subst hs'
            refine ⟨?_, ?_, ?_, ?_, ?_⟩
            · intro w hw
              constructor
              · rw [getEq, getEq, lookupVar_setVar_ne s var w _ hw]
              · rw [getForbidden, getForbidden, lookupVar_setVar_ne s var w _ hw]
            · intro _
              have hself := lookupVar_setVar_self s var (some val, ineq)
              rw [hl] at hself
              constructor
              · rw [getEq, hself]
              · rw [getForbidden, hself, hgf]
            · intro hop2 _
              exact absurd hop2 hneq
            · intro hop2
              exact absurd hop2 hneq
            · intro _ hV
              rw [hgeq] at hV; exact Option.noConfusion hV
      · subst hop
        rw [if_neg hneq2, if_pos rfl] at hadd
        constructor
        · rw [hadd]
          constructor
          · intro hc; exact Option.noConfusion hc
          · rintro (⟨V, hV, _⟩ | ⟨_, hopc, _⟩)
            · rw [hgeq] at hV; exact Option.noConfusion hV
            · exact absurd hopc hneq2
        · intro s' hs'
          rw [hadd] at hs'
          injection hs' with hs'; subst hs'
          refine ⟨?_, ?_, ?_, ?_, ?_⟩
          · intro w hw
            constructor
            · rw [getEq, getEq, lookupVar_setVar_ne s var w _ hw]
            · rw [getForbidden, getForbidden, lookupVar_setVar_ne s var w _ hw]
          · intro hop2
            exact absurd hop2 hneq2
          · intro _ _
            have hself := lookupVar_setVar_self s var (none, insertForbidden ineq val)
            rw [hl] at hself
            constructor
            · rw [getEq, hself]
            · rw [getForbidden, hself, hgf]
          · intro _ V hV
            rw [hgeq] at hV; exact Option.noConfusion hV
          · intro hop2
            exact absurd hop2 hneq2
    | some e0 =>
      have hadd := add_eq_lookup_eqSome s var op val e0 ineq hl
      rcases hop with hop | hop
      · subst hop
        rw [if_pos rfl] at hadd
        constructor
        · rw [hadd]
          by_cases hne : e0 ≠ val
          · rw [if_pos hne]
            constructor
            · intro _
              exact Or.inl ⟨e0, hgeq, Or.inl ⟨rfl, fun hc => hne hc.symm⟩⟩
            · intro _
              rfl
          · rw [if_neg hne]
            push_neg at hne
            constructor
            · intro hc; exact Option.noConfusion hc
            · rintro (⟨V, hV, hcases⟩ | ⟨hnone, _, _⟩)
              · rw [hgeq] at hV
                injection hV with hV; subst hV
                rcases hcases with ⟨_, hvne⟩ | ⟨hopc, _⟩
                · exact absurd hne.symm hvne
                · exact absurd hopc hneq
              · rw [hgeq] at hnone; exact Option.noConfusion hnone
        · intro s' hs'
          rw [hadd] at hs'
          by_cases hne : e0 ≠ val
          · rw [if_pos hne] at hs'; exact absurd hs' (by simp)
          · rw [if_neg hne] at hs'
            push_neg at hne
            injection hs' with hs'; subst hs'
            refine ⟨?_, ?_, ?_, ?_, ?_⟩
            · intro w _
              exact ⟨rfl, rfl⟩
            · intro _
              rw [hgeq, hgf, hne]
              exact ⟨rfl, rfl⟩
            · intro hop2
              exact absurd hop2 hneq
            · intro hop2
              exact absurd hop2 hneq
            · intro _ _
              rfl
      · subst hop
        rw [if_neg hneq2, if_pos rfl] at hadd
        constructor
        · rw [hadd]
          by_cases heq : e0 = val
          · rw [if_pos heq]
            constructor
            · intro _
              exact Or.inl ⟨e0, hgeq, Or.inr ⟨rfl, heq.symm⟩⟩
            · intro _
              rfl
          · rw [if_neg heq]
            constructor
            · intro hc; exact Option.noConfusion hc
            · rintro (⟨V, hV, hcases⟩ | ⟨hnone, _, _⟩)
              · rw [hgeq] at hV
                injection hV with hV; subst hV
                rcases hcases with ⟨hopc, _⟩ | ⟨_, hveq⟩
                · exact absurd hopc hneq2
                · exact absurd hveq.symm heq
              · rw [hgeq] at hnone; exact Option.noConfusion hnone
        · intro s' hs'
          rw [hadd] at hs'
          by_cases heq : e0 = val
          · rw [if_pos heq] at hs'; exact absurd hs' (by simp)
          · rw [if_neg heq] at hs'
            injection hs' with hs'; subst hs'
            refine ⟨?_, ?_, ?_, ?_, ?_⟩
            · intro w _
              exact ⟨rfl, rfl⟩
            · intro hop2
              exact absurd hop2 hneq2
            · intro _ hnone
              rw [hgeq] at hnone; exact Option.noConfusion hnone
            · intro _ _ _
              rfl
            · intro hop2
              exact absurd hop2 hneq2
  | none =>
    have hadd := add_eq_lookup_none s var op val hl
    have hgeq : getEq s var = none := by rw [getEq, hl]
    have hgf : getForbidden s var = [] := by rw [getForbidden, hl]
    rcases hop with hop | hop
    · subst hop
      rw [if_pos rfl] at hadd
      constructor
      · rw [hadd]
        constructor
        · intro hc; exact Option.noConfusion hc
        · rintro (⟨V, hV, _⟩ | ⟨_, _, hmem⟩)
          · rw [hgeq] at hV; exact Option.noConfusion hV
          · rw [hgf] at hmem; simp at hmem
      · intro s' hs'
        rw [hadd] at hs'
        injection hs' with hs'; subst hs'
        refine ⟨?_, ?_, ?_, ?_, ?_⟩
        · intro w hw
          constructor
          · rw [getEq, getEq, lookupVar_append_single_ne s var w _ hw]
          · rw [getForbidden, getForbidden, lookupVar_append_single_ne s var w _ hw]
        · intro _
          have hself := lookupVar_append_single_self s var (some val, []) hl
          constructor
          · rw [getEq, hself]
          · rw [getForbidden, hself, hgf]
        · intro hop2 _
          exact absurd hop2 hneq
        · intro hop2
          exact absurd hop2 hneq
        · intro _ hV
          rw [hgeq] at hV; exact Option.noConfusion hV
    · subst hop
      rw [if_neg hneq2] at hadd
      constructor
      · rw [hadd]
        constructor
        · intro hc; exact Option.noConfusion hc
        · rintro (⟨V, hV, _⟩ | ⟨_, hopc, _⟩)
          · rw [hgeq] at hV; exact Option.noConfusion hV
          · exact absurd hopc hneq2
      · intro s' hs'
        rw [hadd] at hs'
        injection hs' with hs'; subst hs'
        refine ⟨?_, ?_, ?_, ?_, ?_⟩
        · intro w hw
          constructor
          · rw [getEq, getEq, lookupVar_append_single_ne s var w _ hw]
          · rw [getForbidden, getForbidden, lookupVar_append_single_ne s var w _ hw]
        · intro hop2
          exact absurd hop2 hneq2
        · intro _ _
          have hself := lookupVar_append_single_self s var (none, [val]) hl
          constructor
          · rw [getEq, hself]
          · rw [getForbidden, hself, hgf]
            simp [insertForbidden]
        · intro _ V hV
          rw [hgeq] at hV; exact Option.noConfusion hV
        · intro hop2
          exact absurd hop2 hneq2

/-- Witness for C1: at the store `{x ↦ (None, {4})}`, adding `x = 4` is a
contradiction, as case (c) of the theorem demands. -/
theorem C1_add_semantics_witness :
    add_simple_constraint [("x", (none, ["4"]))] "x" "=" "4" = none :=
  ((C1_add_semantics [("x", (none, ["4"]))] "x" "=" "4"
      (fun e he w hw => by
        rw [List.mem_singleton.1 he] at hw
        exact Option.noConfusion hw)
      (Or.inl rfl)).1).mpr
    (Or.inr ⟨rfl, rfl, by decide⟩)

/-! ### Claim C10: unknown operators never fail -/

/-- **C10.** For every store, variable, value and operator other than `=` and
`!=`, `add_simple_constraint` never signals Contradiction: with the variable
absent the value is recorded as forbidden (unknown operators behave like
`!=`), and with the variable present the store is returned unchanged. -/
theorem C10_unknown_operator (s : Store) (var op val : String)
    (h1 : op ≠ "=") (h2 : op ≠ "!=") :
    add_simple_constraint s var op val ≠ none
    ∧ (lookupVar s var = none →
        add_simple_constraint s var op val = some (s ++ [(var, (none, [val]))]))
    ∧ (lookupVar s var ≠ none → add_simple_constraint s var op val = some s) := by
  have hnone : lookupVar s var = none →
      add_simple_constraint s var op val = some (s ++ [(var, (none, [val]))]) := by
    intro hl
    rw [add_eq_lookup_none s var op val hl, if_neg h1]
  have hsome : ∀ p, lookupVar s var = some p →
      add_simple_constraint s var op val = some s := by
    intro p hl
    obtain ⟨eq, ineq⟩ := p
    cases eq with
    | none => rw [add_eq_lookup_eqNone s var op val ineq hl, if_neg h1, if_neg h2]
    | some e0 => rw [add_eq_lookup_eqSome s var op val e0 ineq hl, if_neg h1, if_neg h2]
  refine ⟨?_, hnone, ?_⟩
  · cases hl : lookupVar s var with
    | none => rw [hnone hl]; simp
    | some p => rw [hsome p hl]; simp
  · intro hne
    cases hl : lookupVar s var with
    | none => exact absurd hl hne
    | some p => exact hsome p hl

/-- Witness for C10 with the operator `<`: the present variable is silently
left unchanged and nothing fails. -/
theorem C10_unknown_operator_witness :
    add_simple_constraint [("x", (some "1", []))] "x" "<" "2" ≠ none
    ∧ (lookupVar [("x", (some "1", []))] "x" = none →
        add_simple_constraint [("x", (some "1", []))] "x" "<" "2" =
          some ([("x", (some "1", []))] ++ [("x", (none, ["2"]))]))
    ∧ (lookupVar [("x", (some "1", []))] "x" ≠ none →
        add_simple_constraint [("x", (some "1", []))] "x" "<" "2" =
          some [("x", (some "1", []))]) :=
  C10_unknown_operator [("x", (some "1", []))] "x" "<" "2" (by decide) (by decide)

/-! ### Claim C4: the pruning scenario -/

/-- **C4.** On the tree `0:[x=4] yes=1,no=2; 1:leaf 0.1; 2:[x=4] yes=3,no=4;
3:leaf 0.111; 4:leaf 0.9`, `flatten` emits exactly `x=4 : 0.1` and
`x!=4 : 0.9`: the path to node 3 is pruned (adding `x=4` to an `x!=4` store
is a contradiction, second conjunct) and the re-added `x!=4` is not
duplicated. -/
theorem C4_pruning :
    flatten pruneTable 5 0 = (["x=4 : 0.1", "x!=4 : 0.9"], none)
    ∧ add_simple_constraint [("x", (none, ["4"]))] "x" "=" "4" = none := by
  constructor
  · decide
  · decide

/-! ### Trace decomposition lemmas -/

theorem mem_seqTrace_fst (a b : Trace) (r : String) (h : r ∈ (seqTrace a b).1) :
    r ∈ a.1 ∨ r ∈ b.1 := by
  unfold seqTrace at h
  cases ha : a.2 with
  | some e =>
    rw [ha] at h
    exact Or.inl h
  | none =>
    rw [ha] at h
    exact List.mem_append.1 h

theorem seqTrace_err (a b : Trace) (e : FlattenErr) (h : (seqTrace a b).2 = some e) :
    a.2 = some e ∨ b.2 = some e := by
  unfold seqTrace at h
  cases ha : a.2 with
  | some e2 =>
    rw [ha] at h
    have h2 : some e2 = some e := h
    exact Or.inl h2
  | none =>
    rw [ha] at h
    have h2 : b.2 = some e := h
    exact Or.inr h2

/-! ### Every emitted rule renders a store reached by table-condition adds -/

theorem dfs_rules_pred (nodes : NodeTable) (P : Store → Prop)
    (hP : ∀ t t' c op, CondOfTable nodes c → P t →
      add_simple_constraint t c.var op c.value = some t' → P t') :
    ∀ fuel node_id s extras r, P s →
      r ∈ (dfs_collect_strategies nodes fuel node_id s extras).1 →
      ∃ s' v, P s' ∧ (∃ i n, nodes i = some n ∧ n.leaf_value = some v)
        ∧ r = renderRule s' extras v := by
  intro fuel
  induction fuel with
  | zero =>
    intro node_id s extras r _ hr
    exact absurd hr (List.not_mem_nil r)
  | succ fuel ih =>
    intro node_id s extras r hPs hr
    simp only [dfs_collect_strategies] at hr
    generalize hn : nodes node_id = nd at hr
    cases nd with
    | none => exact absurd hr (List.not_mem_nil r)
    | some node =>
      obtain ⟨nid, noc, nsc, nyb, nnb, nlv⟩ := node
      cases nlv with
      | some v =>
        have hr1 : r ∈ [renderRule s extras v] := hr
        rw [List.mem_singleton] at hr1
        exact ⟨s, v, hPs, ⟨node_id, ⟨nid, noc, nsc, nyb, nnb, some v⟩, hn, rfl⟩, hr1⟩
      | none =>
        cases noc with
        | some oc =>
          rcases mem_seqTrace_fst _ _ r hr with hy | hno
          · cases nyb with
            | none => exact absurd hy (List.not_mem_nil r)
            | some y =>
              rcases mem_seqTrace_fst _ _ r hy with h1 | h2
              · generalize hal : add_simple_constraint s oc.left.var oc.left.operator
                  oc.left.value = resL at h1
                cases resL with
                | none => exact absurd h1 (List.not_mem_nil r)
                | some cl =>
                  exact ih y cl extras r
                    (hP s cl oc.left _
                      ⟨node_id, _, hn, Or.inr ⟨oc, rfl, Or.inl rfl⟩⟩ hPs hal) h1
              · generalize har : add_simple_constraint s oc.right.var oc.right.operator
                  oc.right.value = resR at h2
                cases resR with
                | none => exact absurd h2 (List.not_mem_nil r)
                | some cr =>
                  exact ih y cr extras r
                    (hP s cr oc.right _
                      ⟨node_id, _, hn, Or.inr ⟨oc, rfl, Or.inr rfl⟩⟩ hPs har) h2
          · cases nnb with
            | none => exact absurd hno (List.not_mem_nil r)
            | some nb =>
              generalize hal : add_simple_constraint s oc.left.var (negOp oc.left.operator)
                oc.left.value = resL at hno
              cases resL with
              | none => exact absurd hno (List.not_mem_nil r)
              | some c1 =>
                have hno2 : r ∈
                    (match add_simple_constraint c1 oc.right.var (negOp oc.right.operator)
                        oc.right.value with
                      | none => (([] : List String), (none : Option FlattenErr))
                      | some c2 => dfs_collect_strategies nodes fuel nb c2 extras).1 := hno
                generalize har : add_simple_constraint c1 oc.right.var
                  (negOp oc.right.operator) oc.right.value = resR at hno2
                cases resR with
                | none => exact absurd hno2 (List.not_mem_nil r)
                | some c2 =>
                  have hc1 : P c1 :=
                    hP s c1 oc.left _ ⟨node_id, _, hn, Or.inr ⟨oc, rfl, Or.inl rfl⟩⟩ hPs hal
                  have hc2 : P c2 :=
                    hP c1 c2 oc.right _ ⟨node_id, _, hn, Or.inr ⟨oc, rfl, Or.inr rfl⟩⟩ hc1 har
                  exact ih nb c2 extras r hc2 hno2
        | none =>
          cases nsc with
          | none => exact absurd hr (List.not_mem_nil r)
          | some cond =>
            rcases mem_seqTrace_fst _ _ r hr with hy | hno
            · generalize hal : add_simple_constraint s cond.var cond.operator
                cond.value = resL at hy
              cases resL with
              | none => exact absurd hy (List.not_mem_nil r)
              | some cs =>
                cases nyb with
                | none => exact absurd hy (List.not_mem_nil r)
                | some y =>
                  exact ih y cs extras r
                    (hP s cs cond _ ⟨node_id, _, hn, Or.inl rfl⟩ hPs hal) hy
            · generalize hal : add_simple_constraint s cond.var (negOp cond.operator)
                cond.value = resL at hno
              cases resL with
              | none => exact absurd hno (List.not_mem_nil r)
              | some cs =>
                cases nnb with
                | none => exact absurd hno (List.not_mem_nil r)
                | some nb =>
                  exact ih nb cs extras r
                    (hP s cs cond _ ⟨node_id, _, hn, Or.inl rfl⟩ hPs hal) hno

/-! ### A store with unique keys is satisfiable -/

theorem length_le_maxLen (l : List String) (d : String) (hd : d ∈ l) :
    d.length ≤ maxLen l := by
  induction l with
  | nil => simp at hd
  | cons a rest ih =>
    simp only [maxLen, List.foldr_cons]
    simp only [maxLen] at ih
    rcases List.mem_cons.1 hd with h | h
    · subst h; exact le_max_left _ _
    · exact le_trans (ih h) (le_max_right _ _)

theorem freshNotIn_not_mem (l : List String) (d : String) (hd : d ∈ l) :
    freshNotIn l ≠ d := by
  intro hc
  have hlen : (freshNotIn l).length = maxLen l + 1 := by
    simp [freshNotIn, String.length]
  have hle : d.length ≤ maxLen l := length_le_maxLen l d hd
  rw [hc] at hlen
  omega

theorem satOf_sat (s : Store) (hn : NodupKeys s) : SatAssign (satOf s) s := by
  intro e he
  obtain ⟨k, eq, ineq⟩ := e
  have hl := lookupVar_of_mem_nodup s hn (k, (eq, ineq)) he
  constructor
  · intro w hw
    have hw2 : eq = some w := hw
    subst hw2
    show satOf s k = w
    unfold satOf
    rw [hl]
  · intro hw d hd
    have hw2 : eq = none := hw
    subst hw2
    show satOf s k ≠ d
    unfold satOf
    rw [hl]
    exact freshNotIn_not_mem ineq d hd

/-! ### Claim C3: the store invariant is maintained and rules are satisfiable -/

/-- **C3.** `add_simple_constraint` either signals Contradiction or preserves
the store invariant, and every rule emitted by `flatten` renders a store that
satisfies the invariant, has one entry per variable, and is satisfiable — in
particular no rule constrains a variable both to equal and to differ from
the same value. -/
theorem C3_invariant_and_satisfiability :
    (∀ s var op val s', StoreInv s →
      add_simple_constraint s var op val = some s' → StoreInv s')
    ∧ (∀ nodes fuel root r, r ∈ (flatten nodes fuel root).1 →
        ∃ s v, StoreInv s ∧ NodupKeys s ∧ (∃ σ, SatAssign σ s)
          ∧ r = renderRule s [] v) := by
  constructor
  · intro s var op val s' hinv h
    exact add_preserves_inv s var op val s' hinv h
  · intro nodes fuel root r hr
    have hbase : StoreInv ([] : Store) ∧ NodupKeys ([] : Store) :=
      ⟨fun e he => absurd he (List.not_mem_nil e), List.nodup_nil⟩
    obtain ⟨s', v, ⟨hinv, hnd⟩, _, hrr⟩ :=
      dfs_rules_pred nodes (fun t => StoreInv t ∧ NodupKeys t)
        (fun t t' c op _ hp hadd =>
          ⟨add_preserves_inv t c.var op c.value t' hp.1 hadd,
            add_preserves_nodup t c.var op c.value t' hp.2 hadd⟩)
        fuel root [] [] r hbase hr
    exact ⟨s', v, hinv, hnd, ⟨satOf s', satOf_sat s' hnd⟩, hrr⟩

/-- Witness for C3: the first rule of the pruning scenario comes from an
invariant-satisfying, satisfiable store. -/
theorem C3_invariant_and_satisfiability_witness :
    ∃ s v, StoreInv s ∧ NodupKeys s ∧ (∃ σ, SatAssign σ s)
      ∧ "x=4 : 0.1" = renderRule s [] v :=
  C3_invariant_and_satisfiability.2 pruneTable 5 0 "x=4 : 0.1" (by decide)

/-! ### Claim C9: `extra_conditions` stays empty and contributes nothing -/

/-- **C9.** `flatten` starts the traversal with an empty `extra_conditions`
sequence; the traversal passes it through unchanged, so every rule it emits
renders some store with the `extra_conditions` of the top-level call — for
`flatten`, the empty sequence, whose leaf-time appending contributes no
term. -/
theorem C9_extra_conditions_empty :
    (∀ nodes fuel root, flatten nodes fuel root =
      dfs_collect_strategies nodes fuel root [] [])
    ∧ (∀ nodes fuel node_id s extras r,
        r ∈ (dfs_collect_strategies nodes fuel node_id s extras).1 →
        ∃ s' v, r = renderRule s' extras v)
    ∧ (∀ nodes fuel root r, r ∈ (flatten nodes fuel root).1 →
        ∃ s v, r = renderRule s [] v) := by
  refine ⟨fun nodes fuel root => rfl, ?_, ?_⟩
  · intro nodes fuel node_id s extras r hr
    obtain ⟨s', v, _, _, hrr⟩ :=
      dfs_rules_pred nodes (fun _ => True) (fun _ _ _ _ _ _ _ => trivial)
        fuel node_id s extras r trivial hr
    exact ⟨s', v, hrr⟩
  · intro nodes fuel root r hr
    obtain ⟨s', v, _, _, hrr⟩ :=
      dfs_rules_pred nodes (fun _ => True) (fun _ _ _ _ _ _ _ => trivial)
        fuel root [] [] r trivial hr
    exact ⟨s', v, hrr⟩

/-- Witness for C9: the second rule of the pruning scenario is determined by
a store and leaf value alone. -/
theorem C9_extra_conditions_empty_witness :
    ∃ s v, "x!=4 : 0.9" = renderRule s [] v :=
  C9_extra_conditions_empty.2.2 pruneTable 5 0 "x!=4 : 0.9" (by decide)

/-! ### `OR`-freeness of rendered rules -/

theorem hasOR_append (a b : List Char) (h : hasOR (a ++ b) = true) :
    hasOR a = true ∨ hasOR b = true ∨ (endsO a = true ∧ startsR b = true) := by
  induction a with
  | nil => exact Or.inr (Or.inl h)
  | cons x a2 ih =>
    cases a2 with
    | nil =>
      cases b with
      | nil => simp [hasOR] at h
      | cons y b2 =>
        have h2 : ((x = 'O' && y = 'R') || hasOR (y :: b2)) = true := h
        rw [Bool.or_eq_true] at h2
        rcases h2 with h3 | h3
        · rw [Bool.and_eq_true] at h3
          obtain ⟨hx, hy⟩ := h3
          exact Or.inr (Or.inr ⟨by simpa [endsO] using hx, by simpa [startsR] using hy⟩)
        · exact Or.inr (Or.inl h3)
    | cons z a3 =>
      have h2 : ((x = 'O' && z = 'R') || hasOR (z :: (a3 ++ b))) = true := h
      rw [Bool.or_eq_true] at h2
      rcases h2 with h3 | h3
      · left
        show ((x = 'O' && z = 'R') || hasOR (z :: a3)) = true
        rw [Bool.or_eq_true]
        exact Or.inl h3
      · rcases ih h3 with h4 | h4 | ⟨h4, h5⟩
        · left
          show ((x = 'O' && z = 'R') || hasOR (z :: a3)) = true
          rw [Bool.or_eq_true]
          exact Or.inr h4
        · exact Or.inr (Or.inl h4)
        · exact Or.inr (Or.inr ⟨h4, h5⟩)

theorem noORs_append (a b : String) (ha : noORs a) (hb : noORs b)
    (h : endsO a.data = false ∨ startsR b.data = false) : noORs (a ++ b) := by
  unfold noORs at *
  rw [String.data_append a b]
  cases hc : hasOR (a.data ++ b.data) with
  | false => rfl
  | true =>
    rcases hasOR_append a.data b.data hc with h1 | h1 | ⟨h1, h2⟩
    · rw [ha] at h1; exact Bool.noConfusion h1
    · rw [hb] at h1; exact Bool.noConfusion h1
    · rcases h with h3 | h3
      · rw [h3] at h1; exact Bool.noConfusion h1
      · rw [h3] at h2; exact Bool.noConfusion h2

theorem endsO_append (a b : List Char) (hb : b ≠ []) :
    endsO (a ++ b) = endsO b := by
  induction a with
  | nil => rfl
  | cons x a2 ih =>
    cases a2 with
    | nil =>
      cases b with
      | nil => exact absurd rfl hb
      | cons y b2 => rfl
    | cons z a3 =>
      show endsO (z :: (a3 ++ b)) = endsO b
      exact ih

theorem endsO_str_append (a b : String) (hb : b.data ≠ []) :
    endsO (a ++ b).data = endsO b.data := by
  rw [String.data_append a b]
  exact endsO_append a.data b.data hb

theorem noORs_term_eq (var eqv : String) (h1 : noORs var) (h2 : noORs eqv) :
    noORs (var ++ "=" ++ eqv) := by
  apply noORs_append
  · exact noORs_append var "=" h1 (by decide) (Or.inr (by decide))
  · exact h2
  · left
    rw [endsO_str_append var "=" (by decide)]
    decide

theorem noORs_term_ne (var d : String) (h1 : noORs var) (h2 : noORs d) :
    noORs (var ++ "!=" ++ d) := by
  apply noORs_append
  · exact noORs_append var "!=" h1 (by decide) (Or.inr (by decide))
  · exact h2
  · left
    rw [endsO_str_append var "!=" (by decide)]
    decide

theorem renderTerms_noOR (s : Store) (hs : StoreOK s) :
    ∀ t ∈ renderTerms s, noORs t := by
  intro t ht
  unfold renderTerms at ht
  rcases List.mem_flatMap.1 ht with ⟨e, he, hte⟩
  obtain ⟨hvar, heq, hineq⟩ := hs e he
  cases hev : e.2.1 with
  | some eqv =>
    rw [hev] at hte
    rw [List.mem_singleton] at hte
    subst hte
    exact noORs_term_eq e.1 eqv hvar (heq eqv hev)
  | none =>
    rw [hev] at hte
    rcases List.mem_map.1 hte with ⟨d, hd, hdt⟩
    subst hdt
    have hd2 : d ∈ e.2.2 := (List.perm_insertionSort strLe e.2.2).mem_iff.1 hd
    exact noORs_term_ne e.1 d hvar (hineq d hd2)

theorem joinSep_amp_noOR (l : List String) (h : ∀ t ∈ l, noORs t) :
    noORs (joinSep " & " l) := by
  induction l with
  | nil => decide
  | cons a rest ih =>
    cases rest with
    | nil =>
      show noORs a
      exact h a (List.mem_singleton.2 rfl)
    | cons b r2 =>
      show noORs (a ++ " & " ++ joinSep " & " (b :: r2))
      have ha : noORs a := h a (List.mem_cons_self a _)
      have hrest : noORs (joinSep " & " (b :: r2)) :=
        ih fun t ht => h t (List.mem_cons_of_mem a ht)
      apply noORs_append
      · exact noORs_append a " & " ha (by decide) (Or.inr (by decide))
      · exact hrest
      · left
        rw [endsO_str_append a " & " (by decide)]
        decide

theorem renderRule_noOR (s : Store) (v : String) (hs : StoreOK s) (hv : noORs v) :
    noORs (renderRule s [] v) := by
  unfold renderRule
  have hterms : ∀ t ∈ renderTerms s ++ [], noORs t := by
    intro t ht
    rw [List.append_nil] at ht
    exact renderTerms_noOR s hs t ht
  have hjoin : noORs (joinSep " & " (renderTerms s ++ [])) :=
    joinSep_amp_noOR _ hterms
  by_cases hempty : joinSep " & " (renderTerms s ++ []) = ""
  · rw [if_pos hempty]
    exact noORs_append ": " v (by decide) hv (Or.inl (by decide))
  · rw [if_neg hempty]
    apply noORs_append
    · apply noORs_append _ " : " hjoin (by decide) (Or.inr (by decide))
    · exact hv
    · left
      rw [endsO_str_append _ " : " (by decide)]
      decide

theorem lookupVar_mem (s : Store) (var : String) (p : Option String × List String)
    (h : lookupVar s var = some p) : (var, p) ∈ s := by
  induction s with
  | nil => exact Option.noConfusion h
  | cons e rest ih =>
    obtain ⟨k, q⟩ := e
    by_cases hk : k = var
    · rw [lookupVar, if_pos hk] at h
      injection h with h
      subst h; subst hk
      exact List.mem_cons_self _ _
    · rw [lookupVar, if_neg hk] at h
      exact List.mem_cons_of_mem _ (ih h)

theorem mem_insertForbidden (l : List String) (v d : String)
    (h : d ∈ insertForbidden l v) : d ∈ l ∨ d = v := by
  unfold insertForbidden at h
  by_cases hm : v ∈ l
  · rw [if_pos hm] at h; exact Or.inl h
  · rw [if_neg hm] at h
    rcases List.mem_append.1 h with h1 | h1
    · exact Or.inl h1
    · exact Or.inr (List.mem_singleton.1 h1)

theorem add_preserves_StoreOK (t : Store) (var op val : String) (t' : Store)
    (hvar : noORs var) (hval : noORs val) (ht : StoreOK t)
    (h : add_simple_constraint t var op val = some t') : StoreOK t' := by
  cases hl : lookupVar t var with
  | some p =>
    obtain ⟨eq, ineq⟩ := p
    have hmem : (var, (eq, ineq)) ∈ t := lookupVar_mem t var (eq, ineq) hl
    obtain ⟨_, holdeq, holdineq⟩ := ht (var, (eq, ineq)) hmem
    have hsetok : ∀ q : Option String × List String,
        noORs var → (∀ w, q.1 = some w → noORs w) → (∀ d ∈ q.2, noORs d) →
        StoreOK (setVar t var q) := by
      intro q hv hq1 hq2 e he
      rcases mem_setVar t var q e he with h1 | h1
      · exact ht e h1
      · subst h1
        exact ⟨hv, hq1, hq2⟩
    cases eq with
    | none =>
      rw [add_eq_lookup_eqNone t var op val ineq hl] at h
      by_cases hop : op = "="
      · rw [if_pos hop] at h
        by_cases hm : val ∈ ineq
        · rw [if_pos hm] at h; exact absurd h (by simp)
        · rw [if_neg hm] at h
          injection h with h; subst h
          refine hsetok (some val, ineq) hvar ?_ ?_
          · intro w hw; injection hw with hw; subst hw; exact hval
          · exact holdineq
      · rw [if_neg hop] at h
        by_cases hop2 : op = "!="
        · rw [if_pos hop2] at h
          injection h with h; subst h
          refine hsetok (none, insertForbidden ineq val) hvar ?_ ?_
          · intro w hw; exact Option.noConfusion hw
          · intro d hd
            rcases mem_insertForbidden ineq val d hd with h1 | h1
            · exact holdineq d h1
            · subst h1; exact hval
        · rw [if_neg hop2] at h
          injection h with h; subst h; exact ht
    | some e0 =>
      rw [add_eq_lookup_eqSome t var op val e0 ineq hl] at h
      by_cases hop : op = "="
      · rw [if_pos hop] at h
        by_cases hne : e0 ≠ val
        · rw [if_pos hne] at h; exact absurd h (by simp)
        · rw [if_neg hne] at h
          injection h with h; subst h; exact ht
      · rw [if_neg hop] at h
        by_cases hop2 : op = "!="
        · rw [if_pos hop2] at h
          by_cases heq : e0 = val
          · rw [if_pos heq] at h; exact absurd h (by simp)
          · rw [if_neg heq] at h
            injection h with h; subst h; exact ht
        · rw [if_neg hop2] at h
          injection h with h; subst h; exact ht
  | none =>
    rw [add_eq_lookup_none t var op val hl] at h
    have happok : ∀ q : Option String × List String,
        (∀ w, q.1 = some w → noORs w) → (∀ d ∈ q.2, noORs d) →
        StoreOK (t ++ [(var, q)]) := by
      intro q hq1 hq2 e he
      rcases List.mem_append.1 he with h1 | h1
      · exact ht e h1
      · rw [List.mem_singleton.1 h1]
        exact ⟨hvar, hq1, hq2⟩
    by_cases hop : op = "="
    · rw [if_pos hop] at h
      injection h with h; subst h
      refine happok (some val, []) ?_ ?_
      · intro w hw; injection hw with hw; subst hw; exact hval
      · intro d hd; simp at hd
    · rw [if_neg hop] at h
      injection h with h; subst h
      refine happok (none, [val]) ?_ ?_
      · intro w hw; exact Option.noConfusion hw
      · intro d hd
        rw [List.mem_singleton.1 hd]
        exact hval

theorem condOfTable_ok (nodes : NodeTable) (c : Condition)
    (htab : TableOK nodes) (hc : CondOfTable nodes c) :
    noORs c.var ∧ noORs c.value := by
  obtain ⟨i, n, hn, hcase⟩ := hc
  obtain ⟨hsingle, hor, _⟩ := htab i n hn
  rcases hcase with h1 | ⟨oc, hoc, h2⟩
  · exact hsingle c h1
  · obtain ⟨hl, hr⟩ := hor oc hoc
    rcases h2 with h3 | h3
    · rw [h3]; exact hl
    · rw [h3]; exact hr

theorem orTable_TableOK : TableOK orTable := by
  intro i n hn
  by_cases h0 : i = 0
  · subst h0
    have hn2 : some (⟨0, some ⟨⟨"device_type", "=", "pc"⟩, ⟨"browser", "=", "7"⟩⟩, none,
        some 1, some 2, none⟩ : TreeNode) = some n := hn
    injection hn2 with hn2
    subst hn2
    refine ⟨?_, ?_, ?_⟩
    · intro c hc; exact Option.noConfusion hc
    · intro oc hoc
      injection hoc with hoc
      subst hoc
      exact ⟨⟨by decide, by decide⟩, ⟨by decide, by decide⟩⟩
    · intro v hv; exact Option.noConfusion hv
  · by_cases h1 : i = 1
    · subst h1
      have hn2 : some (leafNode 1 "0.111") = some n := hn
      injection hn2 with hn2
      subst hn2
      refine ⟨?_, ?_, ?_⟩
      · intro c hc; exact Option.noConfusion hc
      · intro oc hoc; exact Option.noConfusion hoc
      · intro v hv
        injection hv with hv
        subst hv
        decide
    · by_cases h2 : i = 2
      · subst h2
        have hn2 : some (leafNode 2 "0.222") = some n := hn
        injection hn2 with hn2
        subst hn2
        refine ⟨?_, ?_, ?_⟩
        · intro c hc; exact Option.noConfusion hc
        · intro oc hoc; exact Option.noConfusion hoc
        · intro v hv
          injection hv with hv
          subst hv
          decide
      · have hnone : orTable i = none := by
          unfold orTable
          rw [if_neg h0, if_neg h1, if_neg h2]
        rw [hnone] at hn
        exact Option.noConfusion hn

/-! ### Claim C2: OR-node YES expansion -/

/-- **C2.** On the tree `0:[device_type=pc||or||browser=7] yes=1,no=2;
1:leaf 0.111; 2:leaf 0.222`, `flatten` emits exactly the three rules
`device_type=pc : 0.111`, `browser=7 : 0.111` and
`device_type!=pc & browser!=7 : 0.222`, none containing a literal `OR`;
in general the YES branch of an OR node runs one sub-traversal per
consistent disjunct, the right disjunct attempted against the original
pre-branch store, and for every table whose conditions and leaf renderings
are `OR`-free, no emitted rule contains a literal `OR`. -/
theorem C2_or_expansion :
    flatten orTable 5 0 =
      (["device_type=pc : 0.111", "browser=7 : 0.111",
        "device_type!=pc & browser!=7 : 0.222"], none)
    ∧ (∀ r ∈ (flatten orTable 5 0).1, noORs r)
    ∧ (∀ (nodes : NodeTable) (fuel node_id : Nat) (n : TreeNode) (oc : OrCondition)
        (y : Nat) (store : Store) (extras : List String),
        nodes node_id = some n → n.leaf_value = none → n.or_condition = some oc →
        n.yes_branch = some y →
        ∃ noT : Trace,
          dfs_collect_strategies nodes (fuel + 1) node_id store extras =
            seqTrace
              (seqTrace
                (match add_simple_constraint store oc.left.var oc.left.operator
                    oc.left.value with
                  | some cl => dfs_collect_strategies nodes fuel y cl extras
                  | none => ([], none))
                (match add_simple_constraint store oc.right.var oc.right.operator
                    oc.right.value with
                  | some cr => dfs_collect_strategies nodes fuel y cr extras
                  | none => ([], none)))
              noT)
    ∧ (∀ nodes, TableOK nodes →
        ∀ fuel root r, r ∈ (flatten nodes fuel root).1 → noORs r) := by
  refine ⟨by decide, by decide, ?_, ?_⟩
  · intro nodes fuel node_id n oc y store extras h1 h2 h3 h4
    refine ⟨(match n.no_branch with
      | some nb =>
        match add_simple_constraint store oc.left.var (negOp oc.left.operator)
            oc.left.value with
        | none => (([] : List String), (none : Option FlattenErr))
        | some c1 =>
          match add_simple_constraint c1 oc.right.var (negOp oc.right.operator)
              oc.right.value with
          | none => (([] : List String), (none : Option FlattenErr))
          | some c2 => dfs_collect_strategies nodes fuel nb c2 extras
      | none => (([] : List String), (none : Option FlattenErr))), ?_⟩
    simp only [dfs_collect_strategies, h1, h2, h3, h4]
  · intro nodes htab fuel root r hr
    obtain ⟨s', v, hok, ⟨i, n, hn, hlv⟩, hrr⟩ :=
      dfs_rules_pred nodes StoreOK
        (fun t t' c op hc hp hadd =>
          add_preserves_StoreOK t c.var op c.value t'
            (condOfTable_ok nodes c htab hc).1 (condOfTable_ok nodes c htab hc).2 hp hadd)
        fuel root [] [] r (fun e he => absurd he (List.not_mem_nil e)) hr
    have hv : noORs v := (htab i n hn).2.2 v hlv
    rw [hrr]
    exact renderRule_noOR s' v hok hv

/-- Witness for C2: the expansion equation at the root OR node of the
concrete scenario, and `OR`-freeness of its first emitted rule. -/
theorem C2_or_expansion_witness :
    (∃ noT : Trace,
      dfs_collect_strategies orTable (4 + 1) 0 [] [] =
        seqTrace
          (seqTrace
            (match add_simple_constraint [] "device_type" "=" "pc" with
              | some cl => dfs_collect_strategies orTable 4 1 cl []
              | none => ([], none))
            (match add_simple_constraint [] "browser" "=" "7" with
              | some cr => dfs_collect_strategies orTable 4 1 cr []
              | none => ([], none)))
          noT)
    ∧ noORs "device_type=pc : 0.111" :=
  ⟨C2_or_expansion.2.2.1 orTable 4 0
      ⟨0, some ⟨⟨"device_type", "=", "pc"⟩, ⟨"browser", "=", "7"⟩⟩, none,
        some 1, some 2, none⟩
      ⟨⟨"device_type", "=", "pc"⟩, ⟨"browser", "=", "7"⟩⟩ 1 [] []
      (by decide) rfl rfl rfl,
    C2_or_expansion.2.2.2 orTable orTable_TableOK 5 0 "device_type=pc : 0.111"
      (by decide)⟩

/-! ### The sort used by rendering is a genuine ascending lexicographic sort -/

theorem lexLtb_asymm (a : List Char) : ∀ b, lexLtb a b = true → lexLtb b a = false := by
  induction a with
  | nil =>
    intro b h
    cases b with
    | nil => exact Bool.noConfusion h
    | cons y bs => rfl
  | cons x as ih =>
    intro b h
    cases b with
    | nil => exact Bool.noConfusion h
    | cons y bs =>
      have h2 : (if x < y then true else if y < x then false else lexLtb as bs) = true := h
      show (if y < x then true else if x < y then false else lexLtb bs as) = false
      by_cases hxy : x < y
      · rw [if_neg (lt_asymm hxy), if_pos hxy]
      · by_cases hyx : y < x
        · rw [if_neg hxy, if_pos hyx] at h2
          exact Bool.noConfusion h2
        · rw [if_neg hxy, if_neg hyx] at h2
          rw [if_neg hyx, if_neg hxy]
          exact ih bs h2

theorem lexLtb_false_trans (a : List Char) :
    ∀ b c, lexLtb a b = false → lexLtb b c = false → lexLtb a c = false := by
  induction a with
  | nil =>
    intro b c h1 h2
    cases b with
    | cons y bs => exact Bool.noConfusion h1
    | nil =>
      cases c with
      | cons z cs => exact Bool.noConfusion h2
      | nil => rfl
  | cons x as ih =>
    intro b c h1 h2
    cases b with
    | nil =>
      cases c with
      | cons z cs => exact Bool.noConfusion h2
      | nil => rfl
    | cons y bs =>
      cases c with
      | nil => rfl
      | cons z cs =>
        have h1b : (if x < y then true else if y < x then false else lexLtb as bs) = false := h1
        have h2b : (if y < z then true else if z < y then false else lexLtb bs cs) = false := h2
        show (if x < z then true else if z < x then false else lexLtb as cs) = false
        by_cases hxy : x < y
        · rw [if_pos hxy] at h1b
          exact Bool.noConfusion h1b
        · by_cases hyz : y < z
          · rw [if_pos hyz] at h2b
            exact Bool.noConfusion h2b
          · by_cases hyx : y < x
            · have hzx : z < x := lt_of_le_of_lt (not_lt.1 hyz) hyx
              rw [if_neg (lt_asymm hzx), if_pos hzx]
            · have hxeqy : x = y := le_antisymm (not_lt.1 hyx) (not_lt.1 hxy)
              subst hxeqy
              by_cases hzx : z < x
              · rw [if_neg (lt_asymm hzx), if_pos hzx]
              · have hxeqz : x = z := le_antisymm (not_lt.1 hzx) (not_lt.1 hyz)
                subst hxeqz
                rw [if_neg hxy, if_neg hyx] at h1b
                rw [if_neg hyz, if_neg hzx] at h2b
                rw [if_neg (lt_irrefl x), if_neg (lt_irrefl x)]
                exact ih bs cs h1b h2b

instance : IsTotal String strLe :=
  ⟨fun a b => by
    unfold strLe
    cases h : lexLtb b.data a.data with
    | false => exact Or.inl rfl
    | true => exact Or.inr (lexLtb_asymm b.data a.data h)⟩

instance : IsTrans String strLe :=
  ⟨fun a b c h1 h2 => lexLtb_false_trans c.data b.data a.data h2 h1⟩

/-! ### Term lists are nonempty strings, so the truthiness test of the
source coincides with the emptiness test of the spec -/

theorem renderTerms_ne_empty (s : Store) : ∀ t ∈ renderTerms s, t ≠ "" := by
  intro t ht
  unfold renderTerms at ht
  rcases List.mem_flatMap.1 ht with ⟨e, _, hte⟩
  cases hev : e.2.1 with
  | some eqv =>
    rw [hev] at hte
    rw [List.mem_singleton] at hte
    subst hte
    intro hc
    have hlen := congrArg String.length hc
    rw [String.length_append, String.length_append] at hlen
    have h1 : ("=" : String).length = 1 := rfl
    have h2 : ("" : String).length = 0 := rfl
    omega
  | none =>
    rw [hev] at hte
    rcases List.mem_map.1 hte with ⟨d, _, hdt⟩
    subst hdt
    intro hc
    have hlen := congrArg String.length hc
    rw [String.length_append, String.length_append] at hlen
    have h1 : ("!=" : String).length = 2 := rfl
    have h2 : ("" : String).length = 0 := rfl
    omega

theorem joinSep_amp_ne_empty (l : List String) (h : ∀ t ∈ l, t ≠ "")
    (hl : l ≠ []) : joinSep " & " l ≠ "" := by
  cases l with
  | nil => exact absurd rfl hl
  | cons a rest =>
    cases rest with
    | nil => exact h a (List.mem_singleton.2 rfl)
    | cons b r2 =>
      show a ++ " & " ++ joinSep " & " (b :: r2) ≠ ""
      intro hc
      have hlen := congrArg String.length hc
      rw [String.length_append, String.length_append] at hlen
      have h1 : (" & " : String).length = 3 := rfl
      have h2 : ("" : String).length = 0 := rfl
      omega

theorem renderRule_eq_spec_render (s : Store) (v : String) :
    renderRule s [] v = spec_render s v := by
  unfold renderRule spec_render
  rw [List.append_nil]
  by_cases hterms : renderTerms s = []
  · rw [hterms]
    rw [if_pos rfl]
    have hempty : joinSep " & " ([] : List String) = "" := rfl
    rw [if_pos hempty]
  · rw [if_neg hterms,
      if_neg (joinSep_amp_ne_empty (renderTerms s) (renderTerms_ne_empty s) hterms)]

/-! ### Claim C5: the exact form of emitted rule strings -/

/-- **C5.** At a leaf reached with empty `extra_conditions` (the only way
`flatten` reaches one), the emitted rule is exactly the spec's rendering:
per store entry in insertion order either the single equality term or the
forbidden values each as one inequality term in ascending lexicographic
order, joined by `" & "`, followed by `" : "` and the leaf value, and
exactly `": "` followed by the value when there are no terms; the sort used
is a true sort (sorted output, a permutation of the input). -/
theorem C5_leaf_rendering :
    (∀ nodes fuel node_id n s v, nodes node_id = some n → n.leaf_value = some v →
      dfs_collect_strategies nodes (fuel + 1) node_id s [] = ([spec_render s v], none))
    ∧ (∀ s v, renderRule s [] v = spec_render s v)
    ∧ (∀ l, List.Sorted strLe (sortStrings l) ∧ List.Perm (sortStrings l) l) := by
  refine ⟨?_, renderRule_eq_spec_render, ?_⟩
  · intro nodes fuel node_id n s v hn hv
    simp only [dfs_collect_strategies, hn, hv]
    rw [renderRule_eq_spec_render]
  · intro l
    exact ⟨List.sorted_insertionSort strLe l, List.perm_insertionSort strLe l⟩

/-- Witness for C5 at a bare-leaf table and a one-variable store. -/
theorem C5_leaf_rendering_witness :
    dfs_collect_strategies singleLeafTable (3 + 1) 0 [("x", (some "4", []))] [] =
      ([spec_render [("x", (some "4", []))] "0.3"], none) :=
  C5_leaf_rendering.1 singleLeafTable 3 0 (leafNode 0 "0.3")
    [("x", (some "4", []))] "0.3" (by decide) rfl

/-! ### Claim C6: malformed-tree faults -/

/-- Counterexample to C6 as stated: a node simultaneously asserting a leaf
value, a single condition and an OR condition does not make the enumeration
fail — the call succeeds (`none` error) and silently emits output for that
node (the leaf variant takes priority). -/
theorem C6_multi_tag_counterexample :
    flatten multiTagTable 5 0 = ([": 0.5"], none) := by
  decide

/-- **C6 (amended).** A referenced id absent from the node table makes the
enumeration fail with a lookup error instead of emitting rules for that
node; but a node asserting more than one variant does not make the call
fail: dispatch is by priority (leaf first), and output is silently produced
for the node's first matching variant. -/
theorem C6_malformed_tree (nodes : NodeTable) (fuel node_id : Nat) (s : Store)
    (extras : List String) :
    (nodes node_id = none →
      dfs_collect_strategies nodes (fuel + 1) node_id s extras =
        ([], some FlattenErr.missingNode))
    ∧ (∀ n v, nodes node_id = some n → n.leaf_value = some v →
        dfs_collect_strategies nodes (fuel + 1) node_id s extras =
          ([renderRule s extras v], none)) := by
  constructor
  · intro h
    simp only [dfs_collect_strategies, h]
  · intro n v hn hv
    simp only [dfs_collect_strategies, hn, hv]

/-- Witness for C6 (amended): the missing node 2 of `missingTailTable`
fails the call; the multi-tag root of `multiTagTable` silently emits its
leaf rule. -/
theorem C6_malformed_tree_witness :
    dfs_collect_strategies missingTailTable (0 + 1) 2 [] [] =
      ([], some FlattenErr.missingNode)
    ∧ dfs_collect_strategies multiTagTable (0 + 1) 0 [] [] =
      ([renderRule [] [] "0.5"], none) :=
  ⟨(C6_malformed_tree missingTailTable 0 2 [] []).1 (by decide),
   (C6_malformed_tree multiTagTable 0 0 [] []).2
     ⟨0, some ⟨⟨"a", "=", "1"⟩, ⟨"b", "=", "2"⟩⟩, some ⟨"a", "=", "1"⟩,
       some 1, some 1, some "0.5"⟩ "0.5" (by decide) rfl⟩

/-! ### Claim C7: termination on acyclic tables -/

/-- **C7.** If every chain of `yes_branch`/`no_branch` references from the
root is finite and non-repeating (the root is accessible for the child
relation), then some finite recursion budget suffices: the traversal never
exhausts its fuel, for any store and `extra_conditions`. -/
theorem C7_termination (nodes : NodeTable) (root : Nat)
    (hacc : Acc (childRel nodes) root) :
    ∃ fuel0, ∀ fuel, fuel0 ≤ fuel → ∀ s extras,
      (dfs_collect_strategies nodes fuel root s extras).2 ≠
        some FlattenErr.outOfFuel := by
  induction hacc with
  | intro i hi ih =>
    cases hn : nodes i with
    | none =>
      refine ⟨1, fun fuel hf s extras => ?_⟩
      cases fuel with
      | zero => exact absurd hf (by omega)
      | succ f =>
        intro hc
        simp only [dfs_collect_strategies, hn] at hc
        exact Option.noConfusion hc (fun h => FlattenErr.noConfusion h)
    | some node =>
      obtain ⟨nid, noc, nsc, nyb, nnb, nlv⟩ := node
      cases nlv with
      | some v =>
        refine ⟨1, fun fuel hf s extras => ?_⟩
        cases fuel with
        | zero => exact absurd hf (by omega)
        | succ f =>
          intro hc
          simp only [dfs_collect_strategies, hn] at hc
          exact Option.noConfusion hc
      | none =>
        have hy : ∃ fy, ∀ y, nyb = some y → ∀ fuel, fy ≤ fuel → ∀ s extras,
            (dfs_collect_strategies nodes fuel y s extras).2 ≠
              some FlattenErr.outOfFuel := by
          cases nyb with
          | none => exact ⟨0, fun y hy => Option.noConfusion hy⟩
          | some y0 =>
            obtain ⟨fy, hfy⟩ :=
              ih y0 ⟨⟨nid, noc, nsc, some y0, nnb, none⟩, hn, Or.inl rfl⟩
            refine ⟨fy, fun y hy => ?_⟩
            injection hy with hy
            subst hy
            exact hfy
        have hno : ∃ fn, ∀ nb, nnb = some nb → ∀ fuel, fn ≤ fuel → ∀ s extras,
            (dfs_collect_strategies nodes fuel nb s extras).2 ≠
              some FlattenErr.outOfFuel := by
          cases nnb with
          | none => exact ⟨0, fun nb hnb => Option.noConfusion hnb⟩
          | some nb0 =>
            obtain ⟨fn, hfn⟩ :=
              ih nb0 ⟨⟨nid, noc, nsc, nyb, some nb0, none⟩, hn, Or.inr rfl⟩
            refine ⟨fn, fun nb hnb => ?_⟩
            injection hnb with hnb
            subst hnb
            exact hfn
        obtain ⟨fy, hfy⟩ := hy
        obtain ⟨fn, hfn⟩ := hno
        refine ⟨fy + fn + 1, fun fuel hf s extras => ?_⟩
        cases fuel with
        | zero => exact absurd hf (by omega)
        | succ f =>
          have hfy2 : fy ≤ f := by omega
          have hfn2 : fn ≤ f := by omega
          intro hcontra
          simp only [dfs_collect_strategies, hn] at hcontra
          cases noc with
          | some oc =>
            rcases seqTrace_err _ _ _ hcontra with he | he
            · cases nyb with
              | none => exact Option.noConfusion he
              | some y =>
                rcases seqTrace_err _ _ _ he with h1 | h1
                · generalize hal : add_simple_constraint s oc.left.var
                    oc.left.operator oc.left.value = resL at h1
                  cases resL with
                  | none => exact Option.noConfusion h1
                  | some cl => exact hfy y rfl f hfy2 cl extras h1
                · generalize har : add_simple_constraint s oc.right.var
                    oc.right.operator oc.right.value = resR at h1
                  cases resR with
                  | none => exact Option.noConfusion h1
                  | some cr => exact hfy y rfl f hfy2 cr extras h1
            · cases nnb with
              | none => exact Option.noConfusion he
              | some nb =>
                generalize hal : add_simple_constraint s oc.left.var
                  (negOp oc.left.operator) oc.left.value = resL at he
                cases resL with
                | none => exact Option.noConfusion he
                | some c1 =>
                  have he2 : (match add_simple_constraint c1 oc.right.var
                      (negOp oc.right.operator) oc.right.value with
                    | none => (([] : List String), (none : Option FlattenErr))
                    | some c2 =>
                      dfs_collect_strategies nodes f nb c2 extras).2 =
                      some FlattenErr.outOfFuel := he
                  generalize har : add_simple_constraint c1 oc.right.var
                    (negOp oc.right.operator) oc.right.value = resR at he2
                  cases resR with
                  | none => exact Option.noConfusion he2
                  | some c2 => exact hfn nb rfl f hfn2 c2 extras he2
          | none =>
            cases nsc with
            | none => exact Option.noConfusion hcontra
            | some cond =>
              rcases seqTrace_err _ _ _ hcontra with he | he
              · generalize hal : add_simple_constraint s cond.var cond.operator
                  cond.value = resL at he
                cases resL with
                | none => exact Option.noConfusion he
                | some cs =>
                  cases nyb with
                  | none => exact Option.noConfusion he
                  | some y => exact hfy y rfl f hfy2 cs extras he
              · generalize hal : add_simple_constraint s cond.var (negOp cond.operator)
                  cond.value = resL at he
                cases resL with
                | none => exact Option.noConfusion he
                | some cs =>
                  cases nnb with
                  | none => exact Option.noConfusion he
                  | some nb => exact hfn nb rfl f hfn2 cs extras he

/-- Witness for C7: the one-leaf table is accessible at its root, so some
budget suffices for every store. -/
theorem C7_termination_witness :
    ∃ fuel0, ∀ fuel, fuel0 ≤ fuel → ∀ s extras,
      (dfs_collect_strategies singleLeafTable fuel 0 s extras).2 ≠
        some FlattenErr.outOfFuel :=
  C7_termination singleLeafTable 0
    (Acc.intro 0 (fun c hc => by
      obtain ⟨n, hn, hbr⟩ := hc
      have hn2 : some (leafNode 0 "0.3") = some n := hn
      injection hn2 with hn2
      subst hn2
      rcases hbr with h | h
      · exact Option.noConfusion h
      · exact Option.noConfusion h))

/-! ### Claim C8: rules before a failure are still delivered -/

theorem seqTrace_fst_err (a b : Trace) (e : FlattenErr) (h : a.2 = some e) :
    (seqTrace a b).2 = some e := by
  unfold seqTrace
  rw [h]

theorem seqTrace_snd (a b : Trace) (h : a.2 = none) :
    (seqTrace a b).2 = b.2 := by
  unfold seqTrace
  rw [h]

theorem add_neq_succeeds (s : Store) (var val : String)
    (h : add_simple_constraint s var "=" val = none) :
    ∃ s', add_simple_constraint s var "!=" val = some s' := by
  cases hl : lookupVar s var with
  | none =>
    rw [add_eq_lookup_none s var "=" val hl, if_pos rfl] at h
    exact Option.noConfusion h
  | some p =>
    obtain ⟨eq, ineq⟩ := p
    cases eq with
    | none =>
      rw [add_eq_lookup_eqNone s var "!=" val ineq hl, if_neg (by decide), if_pos rfl]
      exact ⟨_, rfl⟩
    | some e0 =>
      rw [add_eq_lookup_eqSome s var "=" val e0 ineq hl, if_pos rfl] at h
      by_cases hne : e0 ≠ val
      · rw [add_eq_lookup_eqSome s var "!=" val e0 ineq hl, if_neg (by decide),
          if_pos rfl, if_neg hne]
        exact ⟨_, rfl⟩
      · rw [if_neg hne] at h
        exact Option.noConfusion h

/-- Node 2 of `cyclicTable` references itself on both branches and at least
one branch always survives pruning, so its traversal exhausts any fuel. -/
theorem cyclic_node2_loops : ∀ f s extras,
    (dfs_collect_strategies cyclicTable f 2 s extras).2 =
      some FlattenErr.outOfFuel := by
  intro f
  induction f with
  | zero => intro s extras; rfl
  | succ f ih =>
    intro s extras
    show (seqTrace
        (match add_simple_constraint s "y" "=" "1", (some 2 : Option Nat) with
          | some cs, some y => dfs_collect_strategies cyclicTable f y cs extras
          | _, _ => ([], none))
        (match add_simple_constraint s "y" "!=" "1", (some 2 : Option Nat) with
          | some cs, some y => dfs_collect_strategies cyclicTable f y cs extras
          | _, _ => ([], none))).2 = some FlattenErr.outOfFuel
    cases hal : add_simple_constraint s "y" "=" "1" with
    | some cs =>
      exact seqTrace_fst_err _ _ _ (ih cs extras)
    | none =>
      obtain ⟨s2, hs2⟩ := add_neq_succeeds s "y" "1" hal
      rw [hs2, seqTrace_snd _ _ rfl]
      exact ih s2 extras

/-- **C8.** The generator delivers rules before any failure: for every
sufficient budget, pulling the first rule from `cyclicTable` yields
`x=4 : 0.1` even though the traversal behind the NO branch never terminates
(every budget is exhausted there), and likewise the first rule arrives
before the lookup failure when the NO branch references a missing node —
computation past the first emitted leaf never affects it. -/
theorem C8_lazy_first_rule (fuel : Nat) (h : 3 ≤ fuel) :
    ((dfs_collect_strategies cyclicTable fuel 0 [] []).1.head? =
        some "x=4 : 0.1"
      ∧ (dfs_collect_strategies cyclicTable fuel 0 [] []).2 =
          some FlattenErr.outOfFuel)
    ∧ ((dfs_collect_strategies missingTailTable fuel 0 [] []).1.head? =
        some "x=4 : 0.1"
      ∧ (dfs_collect_strategies missingTailTable fuel 0 [] []).2 =
          some FlattenErr.missingNode) := by
  obtain ⟨g, rfl⟩ : ∃ g, fuel = g + 2 := ⟨fuel - 2, by omega⟩
  refine ⟨⟨?_, ?_⟩, ?_, ?_⟩
  · rfl
  · exact cyclic_node2_loops (g + 1) [("x", (none, ["4"]))] []
  · rfl
  · rfl

/-- Witness for C8 at budget 5. -/
theorem C8_lazy_first_rule_witness :
    ((dfs_collect_strategies cyclicTable 5 0 [] []).1.head? =
        some "x=4 : 0.1"
      ∧ (dfs_collect_strategies cyclicTable 5 0 [] []).2 =
          some FlattenErr.outOfFuel)
    ∧ ((dfs_collect_strategies missingTailTable 5 0 [] []).1.head? =
        some "x=4 : 0.1"
      ∧ (dfs_collect_strategies missingTailTable 5 0 [] []).2 =
          some FlattenErr.missingNode) :=
  C8_lazy_first_rule 5 (by decide)

/-- Counterexample to C2's unrestricted "no emitted rule string ever
contains a literal `OR`": with a condition variable literally named `OR`
(which the upstream text format can produce), the emitted rules contain the
substring `OR`. -/
theorem C2_or_literal_counterexample :
    flatten orVarTable 3 0 = (["OR=1 : 0.1", "OR!=1 : 0.2"], none)
    ∧ hasOR ("OR=1 : 0.1" : String).data = true := by
  constructor
  · decide
  · decide
